import Mathlib

/-!
Verification development for the DocGen extraction and ordered-concurrent
documentation pipeline (source: make_doc.py).

The Python source is shallowly embedded as executable Lean definitions:

* the two compiled regular expressions (function_pattern, struct_pattern)
  are embedded as deterministic matchers over List Char.  For these two
  specific patterns the Python backtracking search is deterministic: every
  character class involved is disjoint from the character that terminates
  it, so greedy runs never have to give characters back, the lazy
  return-type group is resolved by trying split points in increasing
  order, and the comment-run star can never profit from giving back a
  whole comment line (a comment line starts with a slash after optional
  blanks, and a slash is not in the return-type class).  Comments in the
  individual definitions note the correspondence.
* re.finditer is embedded as a left-to-right scan that tries every start
  position and resumes after the end of each (non-overlapping) match.
* _process_block's retry loop, process_file's ThreadPoolExecutor batch
  (parametrised by the nondeterministic completion order of the futures),
  and make_doc's per-file orchestration (skip check, output write, index
  entry) are embedded as pure functions; the number of Transform calls and
  of time.sleep(retry_delay) calls is carried alongside the results.
-/

/-- Python \w for the ASCII range (re module word character). -/
def isWordChar (c : Char) : Bool :=
  (c ≥ 'a' && c ≤ 'z') || (c ≥ 'A' && c ≤ 'Z') || (c ≥ '0' && c ≤ '9') || c == '_'

/-- Python \s for the ASCII range: space, tab, newline, carriage return,
vertical tab, form feed. -/
def isWS (c : Char) : Bool :=
  c == ' ' || c == '\t' || c == '\n' || c == '\r' || c == '\x0b' || c == '\x0c'

/-- The character class of the [ \t]* runs inside the comment alternatives. -/
def isBlank (c : Char) : Bool := c == ' ' || c == '\t'

/-- The return-type class [\w\*\s] of function_pattern. -/
def isRTChar (c : Char) : Bool := isWordChar c || c == '*' || isWS c

/-- True when c is neither an opening nor a closing brace ([^\x7b\x7d]). -/
def isNonBrace (c : Char) : Bool := !(c == '{' || c == '}')

/-- One line-comment alternative of the comments group:
[ \t]*//[^\n]*\n.  Returns the number of characters consumed. -/
def matchLineComment (s : List Char) : Option Nat :=
  let sp := s.takeWhile isBlank
  match s.drop sp.length with
  | '/' :: '/' :: r =>
      let body := r.takeWhile (fun c => !(c == '\n'))
      match r.drop body.length with
      | '\n' :: _ => some (sp.length + 2 + body.length + 1)
      | _ => none
  | _ => none

/-- The inner star of the block-comment alternative,
(?:[^*]|\*(?!/))*: consumes up to (not including) the first */ pair;
none when no */ occurs. -/
def starUntilClose : List Char → Option Nat
  | [] => none
  | '*' :: '/' :: _ => some 0
  | _ :: rest => (starUntilClose rest).map (· + 1)

/-- One block-comment alternative of the comments group:
[ \t]*/\*(?:[^*]|\*(?!/))*\*/[ \t]*\n.  Returns the characters consumed. -/
def matchBlockComment (s : List Char) : Option Nat :=
  let sp := s.takeWhile isBlank
  match s.drop sp.length with
  | '/' :: '*' :: r =>
      match starUntilClose r with
      | some n =>
          let after := r.drop (n + 2)
          let sp2 := after.takeWhile isBlank
          match after.drop sp2.length with
          | '\n' :: _ => some (sp.length + 2 + n + 2 + sp2.length + 1)
          | _ => none
      | none => none
  | _ => none

/-- The greedy star over the two comment alternatives (the comments group
of both patterns), tried line comment first as in the regex.  Each
successful alternative consumes at least one character, so fuel equal to
the length of the input suffices. -/
def commentsLenAux : Nat → List Char → Nat
  | 0, _ => 0
  | fuel + 1, s =>
    match matchLineComment s with
    | some n => n + commentsLenAux fuel (s.drop n)
    | none =>
        match matchBlockComment s with
        | some n => n + commentsLenAux fuel (s.drop n)
        | none => 0

/-- Total length of the comment run captured by the comments group. -/
def commentsLen (s : List Char) : Nat := commentsLenAux (s.length + 1) s

/-- The loop of the brace-body regex after the opening brace and the
first [^\x7b\x7d]* run: it stands at a brace (or at the end).  A closing
brace ends the body; an opening brace must be followed by a brace-free
run, its closing brace, and another brace-free run
(({[^\x7b\x7d]*}[^\x7b\x7d]*)* followed by the final }).  Returns the
number of characters consumed through the final closing brace. -/
def bodyLoopF : Nat → List Char → Option Nat
  | 0, _ => none
  | fuel + 1, t =>
      match t with
      | '}' :: _ => some 1
      | '{' :: u =>
          let b := u.takeWhile isNonBrace
          match u.drop b.length with
          | '}' :: w =>
              let c := w.takeWhile isNonBrace
              match bodyLoopF fuel (w.drop c.length) with
              | some m => some (1 + b.length + 1 + c.length + m)
              | none => none
          | _ => none
      | _ => none

/-- The loop with enough fuel: every iteration consumes at least one
character, so fuel beyond the input length never runs out. -/
def bodyLoop (t : List Char) : Option Nat := bodyLoopF (t.length + 1) t

/-- The brace-delimited body regex {[^\x7b\x7d]*({[^\x7b\x7d]*}[^\x7b\x7d]*)*}
shared by function_pattern and struct_pattern.  Returns the characters
consumed. -/
def matchBraceBody (s : List Char) : Option Nat :=
  match s with
  | '{' :: u =>
      let a := u.takeWhile isNonBrace
      (bodyLoop (u.drop a.length)).map (fun m => 1 + a.length + m)
  | _ => none

/-- The body alternation of function_pattern: a brace body or a bare
semicolon declaration ({...}|;), brace branch preferred as in the regex. -/
def matchBody (s : List Char) : Option Nat :=
  match matchBraceBody s with
  | some n => some n
  | none =>
      match s with
      | ';' :: _ => some 1
      | _ => none

/-- Everything of function_pattern after the lazily chosen return type:
\s+ then the name \w+ then \s* then ( [^)]* ) then \s* then the body.
All runs are greedy; each is terminated by a character outside its class,
so no backtracking between them can succeed and the parse is
deterministic.  Returns (characters consumed, captured name). -/
def parseAfterRT (s : List Char) : Option (Nat × List Char) :=
  let ws := s.takeWhile isWS
  if ws.length == 0 then none else
  let r1 := s.drop ws.length
  let nm := r1.takeWhile isWordChar
  if nm.length == 0 then none else
  let r2 := r1.drop nm.length
  let ws2 := r2.takeWhile isWS
  match r2.drop ws2.length with
  | '(' :: r4 =>
      let ps := r4.takeWhile (fun c => !(c == ')'))
      match r4.drop ps.length with
      | ')' :: r5 =>
          let ws3 := r5.takeWhile isWS
          match matchBody (r5.drop ws3.length) with
          | some bl =>
              some (ws.length + nm.length + ws2.length + 1 + ps.length + 1 + ws3.length + bl, nm)
          | none => none
      | _ => none
  | _ => none

/-- The lazy return-type group [\w\*\s]+? of function_pattern: split
points k = 1, 2, ... inside the maximal class run are tried in
increasing order (lazy preference) until the rest of the pattern
parses.  budget bounds the remaining split points. -/
def rtSearch (s : List Char) : Nat → Nat → Option (Nat × List Char)
  | 0, _ => none
  | b + 1, k =>
      match parseAfterRT (s.drop k) with
      | some (n, nm) => some (k + n, nm)
      | none => rtSearch s b (k + 1)

/-- function_pattern matched exactly at the head of s: comment run, lazy
return type, name, parameter list, body.  Returns
(characters consumed by group 0, captured name). -/
def matchFunctionAt (s : List Char) : Option (Nat × List Char) :=
  let cn := commentsLen s
  let s1 := s.drop cn
  let maxK := (s1.takeWhile isRTChar).length
  match rtSearch s1 maxK 1 with
  | some (n, nm) => some (cn + n, nm)
  | none => none

/-- struct_pattern matched exactly at the head of s: comment run, the
literal word struct, \s+, name \w+, \s*, brace body, \s*, semicolon.
Returns (characters consumed by group 0, captured name). -/
def matchStructAt (s : List Char) : Option (Nat × List Char) :=
  let cn := commentsLen s
  match s.drop cn with
  | 's' :: 't' :: 'r' :: 'u' :: 'c' :: 't' :: r =>
      let ws := r.takeWhile isWS
      if ws.length == 0 then none else
      let r1 := r.drop ws.length
      let nm := r1.takeWhile isWordChar
      if nm.length == 0 then none else
      let r2 := r1.drop nm.length
      let ws2 := r2.takeWhile isWS
      match matchBraceBody (r2.drop ws2.length) with
      | some bl =>
          let r3 := r2.drop (ws2.length + bl)
          let ws3 := r3.takeWhile isWS
          match r3.drop ws3.length with
          | ';' :: _ =>
              some (cn + 6 + ws.length + nm.length + ws2.length + bl + ws3.length + 1, nm)
          | _ => none
      | none => none
  | _ => none

/-- One match produced by the finditer scan: absolute start offset,
length of group 0, and the captured name group. -/
structure RawMatch where
  start : Nat
  len : Nat
  nameChars : List Char
deriving Repr, DecidableEq

/-- Leftmost match at or after position p (the scanning step of
re.finditer): try p, p + 1, ... until the position matcher succeeds. -/
def findFrom (m : List Char → Option (Nat × List Char)) (s : List Char) :
    Nat → Nat → Option RawMatch
  | 0, _ => none
  | fuel + 1, p =>
      match m (s.drop p) with
      | some (n, nm) => some ⟨p, n, nm⟩
      | none => if s.length ≤ p then none else findFrom m s fuel (p + 1)

/-- All non-overlapping matches from position p on (re.finditer): after a
match the scan resumes at its end (one further for an empty match, as in
the re module). -/
def scanAll (m : List Char → Option (Nat × List Char)) (s : List Char) :
    Nat → Nat → List RawMatch
  | 0, _ => []
  | fuel + 1, p =>
      match findFrom m s (s.length + 1 - p) p with
      | none => []
      | some r => r :: scanAll m s fuel (r.start + max r.len 1)

/-- self.function_pattern.finditer(content). -/
def functionMatches (s : List Char) : List RawMatch :=
  scanAll matchFunctionAt s (s.length + 1) 0

/-- self.struct_pattern.finditer(content). -/
def structMatches (s : List Char) : List RawMatch :=
  scanAll matchStructAt s (s.length + 1) 0

/-- The two block kinds of _extract_code_blocks. -/
inductive BlockKind where
  | function
  | struct
deriving Repr, DecidableEq

/-- One extracted tuple (block_type, name, lines). -/
structure CodeBlock where
  kind : BlockKind
  name : String
  lines : List String
deriving Repr, DecidableEq

/-- Python str.split on a newline: always at least one piece, empty
pieces preserved. -/
def splitOnNL : List Char → List (List Char)
  | [] => [[]]
  | '\n' :: r => [] :: splitOnNL r
  | c :: r =>
      match splitOnNL r with
      | l :: ls => (c :: l) :: ls
      | [] => [[c]]

/-- A line for which Python `not line.strip()` holds: all whitespace. -/
def isBlankLine (l : List Char) : Bool := l.all isWS

/-- The two while-pop loops of _extract_code_blocks: drop all-whitespace
lines from the front and from the back. -/
def trimBlockLines (ls : List (List Char)) : List (List Char) :=
  (((ls.dropWhile isBlankLine).reverse).dropWhile isBlankLine).reverse

/-- Build the tuple appended by _extract_code_blocks for one match.
Line 57 of the source prepends the comments group to the rest of
group 0, which reproduces group 0 verbatim, so the block text is the
whole match. -/
def mkBlock (k : BlockKind) (s : List Char) (r : RawMatch) : CodeBlock :=
  ⟨k, String.mk r.nameChars,
    (trimBlockLines (splitOnNL ((s.drop r.start).take r.len))).map String.mk⟩

/-- _extract_code_blocks: the function pass in full, then the struct
pass in full (the source runs two separate finditer loops and appends
function blocks before struct blocks). -/
def extractCodeBlocks (s : List Char) : List CodeBlock :=
  (functionMatches s).map (mkBlock .function s) ++ (structMatches s).map (mkBlock .struct s)

/-- _extract_code_blocks on a Lean String. -/
def extractBlocksStr (s : String) : List CodeBlock := extractCodeBlocks s.data

/-- Python "\n".join. -/
def joinNL : List String → String
  | [] => ""
  | [l] => l
  | l :: rest => l ++ "\n" ++ joinNL rest

/-- The code_block string passed to the Transform call for one block. -/
def blockCode (b : CodeBlock) : String := joinNL b.lines

/-- The outcome of one Transform call (self.llm.make_doc): a generated
document or a raised exception, whose payload is the message. -/
inductive Attempt where
  | ok (doc : String)
  | fail (msg : String)
deriving Repr, DecidableEq

/-- The observable behaviour of one _process_block call: the value it
returns (none models Python falling off the loop and returning None,
which happens only when max_retries is zero), the number of Transform
calls it made, and the number of time.sleep(retry_delay) pauses. -/
structure BlockRun where
  result : Option (Except String (Nat × String))
  calls : Nat
  sleeps : Nat
deriving Repr

/-- The for-attempt loop of _process_block.  transform gives the outcome
of each successive Transform call for this block; attempt is the current
0-based attempt, remaining = max_retries - attempt.  A success returns
(block_index, doc) at once; a failure on the last attempt re-raises; any
earlier failure sleeps once and retries. -/
def processBlockLoop (transform : Nat → Attempt) (blockIndex : Nat) :
    Nat → Nat → BlockRun
  | _, 0 => ⟨none, 0, 0⟩
  | attempt, r + 1 =>
      match transform attempt with
      | .ok doc => ⟨some (.ok (blockIndex, doc)), 1, 0⟩
      | .fail e =>
          if r = 0 then ⟨some (.error e), 1, 0⟩
          else
            let rest := processBlockLoop transform blockIndex (attempt + 1) r
            ⟨rest.result, rest.calls + 1, rest.sleeps + 1⟩

/-- _process_block(block_info, block_index) with max_retries attempts. -/
def processBlock (transform : Nat → Attempt) (maxRetries blockIndex : Nat) : BlockRun :=
  processBlockLoop transform blockIndex 0 maxRetries

/-- Placeholder block for an out-of-range future index (never reached
when the completion order is a permutation of the block indices). -/
def defaultBlock : CodeBlock := ⟨.function, "", []⟩

/-- The future submitted for block i: _process_block run on that block,
its Transform outcomes given by the oracle applied to the block's code
text and the 0-based attempt number. -/
def blockRunOf (oracle : String → Nat → Attempt) (maxRetries : Nat)
    (blocks : List CodeBlock) (i : Nat) : BlockRun :=
  processBlock (oracle (blockCode (blocks.getD i defaultBlock))) maxRetries i

/-- The document block i's future delivers, when it succeeds. -/
def runDoc (oracle : String → Nat → Attempt) (maxRetries : Nat)
    (blocks : List CodeBlock) (i : Nat) : Option String :=
  match (blockRunOf oracle maxRetries blocks i).result with
  | some (.ok p) => some p.2
  | _ => none

/-- Whether block i's future delivers a (block_index, doc) pair rather
than raising. -/
def runOk (oracle : String → Nat → Attempt) (maxRetries : Nat)
    (blocks : List CodeBlock) (i : Nat) : Bool :=
  match (blockRunOf oracle maxRetries blocks i).result with
  | some (.ok _) => true
  | _ => false

/-- The as_completed collection loop of process_file.  order lists the
block indices in the order their futures complete (the nondeterminism of
the thread pool, made an explicit parameter).  Each completing future
either appends (block_index, doc) to results or makes process_file
return False at once, reporting that block; the total number of
Transform calls made by the drained futures is carried alongside. -/
def collectResults (oracle : String → Nat → Attempt) (maxRetries : Nat)
    (blocks : List CodeBlock) : List Nat → Except Nat (List (Nat × String)) × Nat
  | [] => (.ok [], 0)
  | i :: rest =>
      let run := blockRunOf oracle maxRetries blocks i
      match run.result with
      | some (.ok res) =>
          let tail := collectResults oracle maxRetries blocks rest
          (match tail.1 with
           | .ok acc => .ok (res :: acc)
           | .error j => .error j, run.calls + tail.2)
      | _ => (.error i, run.calls)

/-- results.sort(key=lambda x: x[0]): a stable sort by the first
component (the block index). -/
def sortByIndex (pairs : List (Nat × String)) : List (Nat × String) :=
  List.insertionSort (fun a b => a.1 ≤ b.1) pairs

/-- The whole-batch outcome of process_file on an extracted block list:
Failure with the reported block index, or Success with the per-block
documents sorted back into original order. -/
def processBlocksRun (oracle : String → Nat → Attempt) (maxRetries : Nat)
    (blocks : List CodeBlock) (order : List Nat) : Except Nat (List String) × Nat :=
  match collectResults oracle maxRetries blocks order with
  | (.ok pairs, c) => (.ok ((sortByIndex pairs).map (fun p => p.2)), c)
  | (.error i, c) => (.error i, c)

/-- process_file from extraction to outcome: extract the blocks of the
file text, then run the batch. -/
def processFileCore (oracle : String → Nat → Attempt) (maxRetries : Nat)
    (content : String) (order : List Nat) : Except Nat (List String) × Nat :=
  processBlocksRun oracle maxRetries (extractBlocksStr content) order

/-- The per-file output document: each block's doc followed by one blank
line (md_file.write(doc); md_file.write two newlines). -/
def fileOutput (outputs : List String) : String :=
  String.join (outputs.map (fun d => d ++ "\n\n"))

/-- The suffix test at the top of process_file. -/
def suffixOk (suffix : String) : Bool := suffix == ".h" || suffix == ".hpp"

/-- The skip test of make_doc: the output artifact exists and has size
greater than zero. -/
def shouldSkip (artifact : Option String) : Bool :=
  match artifact with
  | some s => decide (0 < s.length)
  | none => false

/-- The index-link loop of make_doc: one markdown link line per
function-kind block, nothing for struct-kind blocks. -/
def indexLinks (linkPath : String) : List CodeBlock → String
  | [] => ""
  | b :: rest =>
      (if b.kind == BlockKind.function then
        "- [" ++ b.name ++ "](" ++ linkPath ++ "#" ++ b.name ++ ")\n"
      else "") ++ indexLinks linkPath rest

/-- The index section appended for one successfully processed file: the
stem header, the function links, one closing newline. -/
def indexEntry (stem linkPath : String) (blocks : List CodeBlock) : String :=
  "## " ++ stem ++ "\n" ++ indexLinks linkPath blocks ++ "\n"

/-- What one iteration of the make_doc loop leaves behind for one input
file: the file's output artifact after the iteration, the text appended
to index.md, whether process_file returned True, and how many Transform
calls were made. -/
structure StepResult where
  artifact : Option String
  indexAppend : String
  processed : Bool
  calls : Nat
deriving Repr, DecidableEq

/-- One iteration of the make_doc per-file loop.  stem is
file_path.stem; relStem is the output-relative path without its suffix,
so the output artifact lives at files/relStem.md and the index links
point at files/relStem.html.  artifact is the current content of the
output artifact (none when absent).  If the skip test passes nothing
happens; otherwise process_file runs: on False the artifact is left
untouched and no index entry is made; on True the ordered outputs are
written and the index section is built from a fresh second extraction of
the file text, as in the source. -/
def makeDocStep (oracle : String → Nat → Attempt) (maxRetries : Nat)
    (stem relStem suffix content : String) (artifact : Option String)
    (order : List Nat) : StepResult :=
  if shouldSkip artifact then ⟨artifact, "", false, 0⟩
  else if suffixOk suffix then
    match processFileCore oracle maxRetries content order with
    | (.ok outs, c) =>
        ⟨some (fileOutput outs),
         indexEntry stem ("files/" ++ relStem ++ ".html") (extractBlocksStr content),
         true, c⟩
    | (.error _, c) => ⟨artifact, "", false, c⟩
  else ⟨artifact, "", false, 0⟩

/-- Sequential concatenation of a list of written strings. -/
def strConcat : List String → String
  | [] => ""
  | s :: rest => s ++ strConcat rest

/-- A Transform oracle that fails every call on every block. -/
def oracleFailAll : String → Nat → Attempt := fun _ _ => Attempt.fail "boom"

/-- A Transform oracle that succeeds at once, tagging the block text. -/
def oracleTag : String → Nat → Attempt := fun s _ => Attempt.ok ("D:" ++ s)

/-- Two-function sample text used by concrete batch scenarios. -/
def twoFunText : String := "int f();\nint g();"

/-- Its extracted blocks. -/
def twoFunBlocks : List CodeBlock := extractBlocksStr twoFunText

/-- C9: when the mirrored output artifact already exists with size greater
than zero, the make_doc iteration for that file does nothing: no Transform
call is made, the artifact is left unchanged, no index text is appended,
and process_file is not reported as having run. -/
theorem c9_skip_nonempty_artifact (oracle : String → Nat → Attempt) (R : Nat)
    (stem relStem suffix content : String) (artifact : Option String) (order : List Nat)
    (h : shouldSkip artifact = true) :
    makeDocStep oracle R stem relStem suffix content artifact order =
      ⟨artifact, "", false, 0⟩ := by
  simp [makeDocStep, h]

/-- Witness for c9_skip_nonempty_artifact at a concrete nonempty artifact. -/
theorem c9_skip_nonempty_artifact_witness :
    makeDocStep oracleTag 3 "s" "s" ".h" twoFunText (some "old") [0, 1] =
      ⟨some "old", "", false, 0⟩ :=
  c9_skip_nonempty_artifact oracleTag 3 "s" "s" ".h" twoFunText (some "old") [0, 1] rfl

/-- C2: whenever the batch fails (process_file returns False because some
block exhausted its retries), the file's output artifact is untouched:
absent if it was absent, byte-for-byte unchanged if it existed.  The
write in process_file happens only after every future has delivered a
result. -/
theorem c2_failure_writes_nothing (oracle : String → Nat → Attempt) (R : Nat)
    (stem relStem suffix content : String) (artifact : Option String)
    (order : List Nat) (i : Nat)
    (h : (processFileCore oracle R content order).1 = Except.error i) :
    (makeDocStep oracle R stem relStem suffix content artifact order).artifact = artifact := by
  unfold makeDocStep
  rcases hpc : processFileCore oracle R content order with ⟨res, c⟩
  rw [hpc] at h
  simp only at h
  subst h
  by_cases hs : shouldSkip artifact
  · simp [hs]
  · by_cases hx : suffixOk suffix
    · simp [hs, hx, hpc]
    · simp [hs, hx]

/-- Witness for c2_failure_writes_nothing: a file with one function block,
an always-failing Transform, an existing artifact that stays unchanged. -/
theorem c2_failure_writes_nothing_witness :
    (makeDocStep oracleFailAll 1 "s" "s" ".h" "int f();" (some "old") [0]).artifact =
      some "old" :=
  c2_failure_writes_nothing oracleFailAll 1 "s" "s" ".h" "int f();" (some "old") [0] 0 rfl

/-- C7: extraction is a pure function of the text: the transformation
pass and the index-link pass of make_doc, which each call
_extract_code_blocks on the same file content, obtain identical block
sequences (same kinds, names and line lists in the same order), with no
dependence on external state. -/
theorem c7_extraction_idempotent (c1 c2 : String) (h : c1 = c2) :
    extractBlocksStr c1 = extractBlocksStr c2 ∧
    extractCodeBlocks c1.data = extractCodeBlocks c2.data := by
  subst h
  exact ⟨rfl, rfl⟩

/-- Witness for c7_extraction_idempotent on a concrete file text. -/
theorem c7_extraction_idempotent_witness :
    extractBlocksStr twoFunText = extractBlocksStr twoFunText ∧
    extractCodeBlocks twoFunText.data = extractCodeBlocks twoFunText.data :=
  c7_extraction_idempotent twoFunText twoFunText rfl

/-- The link loop writes exactly one line per function-kind block, in
list order, and nothing for struct-kind blocks. -/
theorem indexLinks_eq_filter (lp : String) (bs : List CodeBlock) :
    indexLinks lp bs =
      strConcat ((bs.filter (fun b => b.kind == BlockKind.function)).map
        (fun b => "- [" ++ b.name ++ "](" ++ lp ++ "#" ++ b.name ++ ")\n")) := by
  induction bs with
  | nil => rfl
  | cons b rest ih =>
      cases hk : b.kind with
      | function =>
          have hb : (b.kind == BlockKind.function) = true := by rw [hk]; rfl
          simp [indexLinks, List.filter_cons, hb, strConcat, ih]
      | struct =>
          have hb : (b.kind == BlockKind.function) = false := by rw [hk]; rfl
          simp [indexLinks, List.filter_cons, hb, strConcat, ih]

/-- C8: for a file that passes the skip test, has a header suffix, and
whose batch succeeds, the index gains the stem header followed by
exactly one link line per function-kind block of the (re-run) extraction,
in extraction order, each of the form - [name](files/relStem.html#name)
with link text and anchor both the function's name; struct-kind blocks
contribute nothing. -/
theorem c8_index_entry_shape (oracle : String → Nat → Attempt) (R : Nat)
    (stem relStem content : String) (artifact : Option String)
    (order : List Nat) (outs : List String)
    (hsk : shouldSkip artifact = false)
    (h : (processFileCore oracle R content order).1 = Except.ok outs) :
    (makeDocStep oracle R stem relStem ".h" content artifact order).indexAppend =
      "## " ++ stem ++ "\n" ++
      strConcat (((extractBlocksStr content).filter
          (fun b => b.kind == BlockKind.function)).map
        (fun b =>
          "- [" ++ b.name ++ "](" ++ ("files/" ++ relStem ++ ".html") ++ "#" ++ b.name ++ ")\n")) ++
      "\n" := by
  unfold makeDocStep
  rcases hpc : processFileCore oracle R content order with ⟨res, c⟩
  rw [hpc] at h
  simp only at h
  subst h
  simp only [hsk, Bool.false_eq_true, if_false, suffixOk, beq_self_eq_true, Bool.true_or,
    if_true, indexEntry, indexLinks_eq_filter]

/-- Witness for c8_index_entry_shape: two functions give two links under
the header, in extraction order. -/
theorem c8_index_entry_shape_witness :
    (makeDocStep oracleTag 3 "hdr" "sub/hdr" ".h" twoFunText none [1, 0]).indexAppend =
      "## " ++ "hdr" ++ "\n" ++
      strConcat (((extractBlocksStr twoFunText).filter
          (fun b => b.kind == BlockKind.function)).map
        (fun b =>
          "- [" ++ b.name ++ "](" ++ ("files/" ++ "sub/hdr" ++ ".html") ++ "#" ++ b.name ++ ")\n")) ++
      "\n" :=
  c8_index_entry_shape oracleTag 3 "hdr" "sub/hdr" twoFunText none [1, 0]
    ["D:int f();", "D:int g();"] rfl (by rfl)

/-- C10: a header-suffix file whose text yields zero blocks is processed
successfully with no Transform call and a zero-length output artifact;
because the skip test demands size greater than zero, that artifact fails
the skip test, so on every later run the file is processed again and
re-indexed as a bare header with no links. -/
theorem c10_zero_block_file (oracle : String → Nat → Attempt) (R : Nat)
    (stem relStem content : String) (artifact : Option String)
    (hb : extractBlocksStr content = [])
    (hsk : shouldSkip artifact = false) :
    makeDocStep oracle R stem relStem ".h" content artifact [] =
      ⟨some "", "## " ++ stem ++ "\n\n", true, 0⟩ ∧
    shouldSkip (some "") = false := by
  refine ⟨?_, rfl⟩
  unfold makeDocStep
  have hpc : processFileCore oracle R content [] = (Except.ok ([] : List String), 0) := by
    unfold processFileCore
    rw [hb]
    rfl
  rw [hpc]
  simp only [hsk, Bool.false_eq_true, if_false, suffixOk, beq_self_eq_true, Bool.true_or,
    if_true, indexEntry, hb, indexLinks]
  have h2 : "## " ++ stem ++ "\n" ++ "" ++ "\n" = "## " ++ stem ++ "\n\n" := by
    rw [String.append_empty, String.append_assoc]
    rfl
  rw [h2]
  rfl

/-- Witness for c10_zero_block_file on a blockless concrete file. -/
theorem c10_zero_block_file_witness :
    makeDocStep oracleFailAll 3 "doc" "doc" ".h" "hello" none [] =
      ⟨some "", "## " ++ "doc" ++ "\n\n", true, 0⟩ ∧
    shouldSkip (some "") = false :=
  c10_zero_block_file oracleFailAll 3 "doc" "doc" "hello" none rfl rfl

/-- Characterisation of the success result of the retry loop: it returns
(blockIndex, d) exactly when some attempt within the budget succeeds with
d and all earlier attempts fail. -/
theorem processBlockLoop_ok_iff (t : Nat → Attempt) (i : Nat) :
    ∀ (r a : Nat) (j : Nat) (d : String),
      (processBlockLoop t i a r).result = some (Except.ok (j, d)) ↔
        (j = i ∧ ∃ k, k < r ∧ t (a + k) = Attempt.ok d ∧
          ∀ m, m < k → ∃ e, t (a + m) = Attempt.fail e) := by
  intro r
  induction r with
  | zero =>
      intro a j d
      simp [processBlockLoop]
  | succ s ih =>
      intro a j d
      cases ht : t a with
      | ok doc =>
          simp only [processBlockLoop, ht]
          show some (Except.ok (i, doc)) = some (Except.ok (j, d)) ↔ _
          constructor
          · intro h
            simp only [Option.some.injEq, Except.ok.injEq, Prod.mk.injEq] at h
            refine ⟨h.1.symm, 0, by omega, ?_, ?_⟩
            · rw [Nat.add_zero, ht, h.2]
            · intro m hm
              exact absurd hm (Nat.not_lt_zero m)
          · rintro ⟨rfl, k, hk, hok, hfail⟩
            cases k with
            | zero =>
                rw [Nat.add_zero, ht] at hok
                cases hok
                rfl
            | succ k2 =>
                obtain ⟨e, he⟩ := hfail 0 (Nat.succ_pos k2)
                rw [Nat.add_zero, ht] at he
                exact absurd he (by simp)
      | fail e0 =>
          cases s with
          | zero =>
              simp only [processBlockLoop, ht, if_pos rfl]
              show some (Except.error e0) = some (Except.ok (j, d)) ↔ _
              constructor
              · intro h
                simp at h
              · rintro ⟨rfl, k, hk, hok, hfail⟩
                have hk0 : k = 0 := by omega
                subst hk0
                rw [Nat.add_zero, ht] at hok
                exact absurd hok (by simp)
          | succ s2 =>
              simp only [processBlockLoop, ht, if_neg (Nat.succ_ne_zero s2)]
              show (processBlockLoop t i (a + 1) (s2 + 1)).result = some (Except.ok (j, d)) ↔ _
              rw [ih (a + 1) j d]
              constructor
              · rintro ⟨rfl, k, hk, hok, hfail⟩
                refine ⟨rfl, k + 1, by omega, ?_, ?_⟩
                · rw [show a + (k + 1) = a + 1 + k by omega]
                  exact hok
                · intro m hm
                  cases m with
                  | zero => exact ⟨e0, by rw [Nat.add_zero]; exact ht⟩
                  | succ m2 =>
                      obtain ⟨e, he⟩ := hfail m2 (by omega)
                      exact ⟨e, by rw [show a + (m2 + 1) = a + 1 + m2 by omega]; exact he⟩
              · rintro ⟨rfl, k, hk, hok, hfail⟩
                cases k with
                | zero =>
                    rw [Nat.add_zero, ht] at hok
                    exact absurd hok (by simp)
                | succ k2 =>
                    refine ⟨rfl, k2, by omega, ?_, ?_⟩
                    · rw [show a + 1 + k2 = a + (k2 + 1) by omega]
                      exact hok
                    · intro m hm
                      obtain ⟨e, he⟩ := hfail (m + 1) (by omega)
                      exact ⟨e, by rw [show a + 1 + m = a + (m + 1) by omega]; exact he⟩

/-- Characterisation of the raising result of the retry loop: the last
exception is re-raised exactly when every attempt of a positive budget
fails, the payload being the last attempt's error. -/
theorem processBlockLoop_err_iff (t : Nat → Attempt) (i : Nat) :
    ∀ (r a : Nat) (e : String),
      (processBlockLoop t i a r).result = some (Except.error e) ↔
        (1 ≤ r ∧ t (a + (r - 1)) = Attempt.fail e ∧
          ∀ m, m < r → ∃ e2, t (a + m) = Attempt.fail e2) := by
  intro r
  induction r with
  | zero =>
      intro a e
      simp [processBlockLoop]
  | succ s ih =>
      intro a e
      cases ht : t a with
      | ok doc =>
          simp only [processBlockLoop, ht]
          show some (Except.ok (i, doc)) = some (Except.error e) ↔ _
          constructor
          · intro h
            simp at h
          · rintro ⟨-, -, hfail⟩
            obtain ⟨e2, he2⟩ := hfail 0 (Nat.succ_pos s)
            rw [Nat.add_zero, ht] at he2
            exact absurd he2 (by simp)
      | fail e0 =>
          cases s with
          | zero =>
              simp only [processBlockLoop, ht, if_pos rfl]
              show some (Except.error e0) = some (Except.error e) ↔ _
              constructor
              · intro h
                simp only [Option.some.injEq, Except.error.injEq] at h
                refine ⟨le_refl 1, ?_, ?_⟩
                · rw [show (1 : Nat) - 1 = 0 from rfl, Nat.add_zero, ht, h]
                · intro m hm
                  have hm0 : m = 0 := by omega
                  subst hm0
                  exact ⟨e0, by rw [Nat.add_zero]; exact ht⟩
              · rintro ⟨-, hlast, -⟩
                rw [show (1 : Nat) - 1 = 0 from rfl, Nat.add_zero, ht] at hlast
                cases hlast
                rfl
          | succ s2 =>
              simp only [processBlockLoop, ht, if_neg (Nat.succ_ne_zero s2)]
              show (processBlockLoop t i (a + 1) (s2 + 1)).result = some (Except.error e) ↔ _
              rw [ih (a + 1) e]
              constructor
              · rintro ⟨h1, hlast, hfail⟩
                refine ⟨by omega, ?_, ?_⟩
                · rw [show a + (s2 + 1 + 1 - 1) = a + 1 + (s2 + 1 - 1) by omega]
                  exact hlast
                · intro m hm
                  cases m with
                  | zero => exact ⟨e0, by rw [Nat.add_zero]; exact ht⟩
                  | succ m2 =>
                      obtain ⟨e2, he2⟩ := hfail m2 (by omega)
                      exact ⟨e2, by rw [show a + (m2 + 1) = a + 1 + m2 by omega]; exact he2⟩
              · rintro ⟨h1, hlast, hfail⟩
                refine ⟨by omega, ?_, ?_⟩
                · rw [show a + 1 + (s2 + 1 - 1) = a + (s2 + 1 + 1 - 1) by omega]
                  exact hlast
                · intro m hm
                  obtain ⟨e2, he2⟩ := hfail (m + 1) (by omega)
                  exact ⟨e2, by rw [show a + 1 + m = a + (m + 1) by omega]; exact he2⟩

/-- The loop makes at most as many Transform calls as its budget. -/
theorem processBlockLoop_calls_le (t : Nat → Attempt) (i : Nat) :
    ∀ (r a : Nat), (processBlockLoop t i a r).calls ≤ r := by
  intro r
  induction r with
  | zero =>
      intro a
      simp [processBlockLoop]
  | succ s ih =>
      intro a
      cases ht : t a with
      | ok doc => simp [processBlockLoop, ht]
      | fail e0 =>
          cases s with
          | zero => simp [processBlockLoop, ht]
          | succ s2 =>
              simp only [processBlockLoop, ht, if_neg (Nat.succ_ne_zero s2)]
              show (processBlockLoop t i (a + 1) (s2 + 1)).calls + 1 ≤ s2 + 1 + 1
              have := ih (a + 1)
              omega

/-- When the loop re-raises, it has made exactly its full budget of
Transform calls. -/
theorem processBlockLoop_err_calls (t : Nat → Attempt) (i : Nat) :
    ∀ (r a : Nat) (e : String),
      (processBlockLoop t i a r).result = some (Except.error e) →
      (processBlockLoop t i a r).calls = r := by
  intro r
  induction r with
  | zero =>
      intro a e h
      simp [processBlockLoop] at h
  | succ s ih =>
      intro a e h
      cases ht : t a with
      | ok doc =>
          rw [show (processBlockLoop t i a (s + 1)).result =
                some (Except.ok (i, doc)) by simp [processBlockLoop, ht]] at h
          simp at h
      | fail e0 =>
          cases s with
          | zero => simp [processBlockLoop, ht]
          | succ s2 =>
              simp only [processBlockLoop, ht, if_neg (Nat.succ_ne_zero s2)] at h ⊢
              show (processBlockLoop t i (a + 1) (s2 + 1)).calls + 1 = s2 + 1 + 1
              have := ih (a + 1) e h
              omega

/-- With a positive budget the loop sleeps exactly once between
consecutive Transform calls: calls = sleeps + 1. -/
theorem processBlockLoop_sleeps (t : Nat → Attempt) (i : Nat) :
    ∀ (r a : Nat), 0 < r →
      (processBlockLoop t i a r).calls = (processBlockLoop t i a r).sleeps + 1 := by
  intro r
  induction r with
  | zero =>
      intro a h
      exact absurd h (by omega)
  | succ s ih =>
      intro a _
      cases ht : t a with
      | ok doc => simp [processBlockLoop, ht]
      | fail e0 =>
          cases s with
          | zero => simp [processBlockLoop, ht]
          | succ s2 =>
              simp only [processBlockLoop, ht, if_neg (Nat.succ_ne_zero s2)]
              show (processBlockLoop t i (a + 1) (s2 + 1)).calls + 1 =
                (processBlockLoop t i (a + 1) (s2 + 1)).sleeps + 1 + 1
              have := ih (a + 1) (Nat.succ_pos s2)
              omega

/-- C3: _process_block makes at most max_retries Transform calls; it
returns (block_index, doc) exactly when one of the first max_retries
outcomes is a success, doc being the first successful outcome, all
earlier ones failures; it re-raises the last exception exactly when all
max_retries outcomes are failures, having then made exactly max_retries
calls; and between consecutive calls it sleeps exactly once for the
retry delay (calls = sleeps + 1 whenever the loop runs at all). -/
theorem c3_process_block_retry_contract (t : Nat → Attempt) (R i : Nat) :
    ((processBlock t R i).calls ≤ R) ∧
    (∀ j d, (processBlock t R i).result = some (Except.ok (j, d)) ↔
        (j = i ∧ ∃ k, k < R ∧ t k = Attempt.ok d ∧
          ∀ m, m < k → ∃ e, t m = Attempt.fail e)) ∧
    (∀ e, (processBlock t R i).result = some (Except.error e) ↔
        (1 ≤ R ∧ t (R - 1) = Attempt.fail e ∧
          ∀ m, m < R → ∃ e2, t m = Attempt.fail e2)) ∧
    (∀ e, (processBlock t R i).result = some (Except.error e) →
        (processBlock t R i).calls = R) ∧
    (0 < R → (processBlock t R i).calls = (processBlock t R i).sleeps + 1) := by
  refine ⟨processBlockLoop_calls_le t i R 0, ?_, ?_, ?_, ?_⟩
  · intro j d
    have h := processBlockLoop_ok_iff t i R 0 j d
    simpa [processBlock] using h
  · intro e
    have h := processBlockLoop_err_iff t i R 0 e
    simpa [processBlock] using h
  · intro e h
    exact processBlockLoop_err_calls t i R 0 e h
  · intro h
    exact processBlockLoop_sleeps t i R 0 h

/-- A Transform behaviour that fails its first two calls and succeeds on
the third. -/
def twoFailOracle : Nat → Attempt :=
  fun k => if k < 2 then Attempt.fail "boom" else Attempt.ok "doc"

/-- Witness for c3_process_block_retry_contract: with budget 3 the block
whose Transform fails twice then succeeds returns (its index, the third
outcome), and its call count exceeds its sleep count by one. -/
theorem c3_process_block_retry_contract_witness :
    (processBlock twoFailOracle 3 7).result = some (Except.ok (7, "doc")) ∧
    (processBlock twoFailOracle 3 7).calls = (processBlock twoFailOracle 3 7).sleeps + 1 := by
  constructor
  · refine ((c3_process_block_retry_contract twoFailOracle 3 7).2.1 7 "doc").mpr
      ⟨rfl, 2, by omega, rfl, ?_⟩
    intro m hm
    match m, hm with
    | 0, _ => exact ⟨"boom", rfl⟩
    | 1, _ => exact ⟨"boom", rfl⟩
  · exact (c3_process_block_retry_contract twoFailOracle 3 7).2.2.2.2 (by omega)

/-- A successful future's pair carries its own block index. -/
theorem processBlock_ok_fst (t : Nat → Attempt) (R i : Nat) (p : Nat × String)
    (h : (processBlock t R i).result = some (Except.ok p)) : p.1 = i :=
  ((processBlockLoop_ok_iff t i R 0 p.1 p.2).mp h).1

/-- If a successful future's document is looked up through runDoc it is
found there. -/
theorem runDoc_of_runOk (oracle : String → Nat → Attempt) (R : Nat)
    (blocks : List CodeBlock) (i : Nat) (h : runOk oracle R blocks i = true) :
    some ((runDoc oracle R blocks i).getD "") = runDoc oracle R blocks i := by
  unfold runOk at h
  unfold runDoc
  cases hr : (blockRunOf oracle R blocks i).result with
  | some x =>
      cases x with
      | ok p => simp
      | error e => rw [hr] at h; simp at h
  | none => rw [hr] at h; simp at h

/-- When the as_completed loop drains every future without a failure,
the collected results are exactly the per-future pairs in completion
order, and every drained future succeeded. -/
theorem collectResults_ok (oracle : String → Nat → Attempt) (R : Nat)
    (blocks : List CodeBlock) :
    ∀ (order : List Nat) (pairs : List (Nat × String)),
      (collectResults oracle R blocks order).1 = Except.ok pairs →
      pairs = order.map (fun i => (i, (runDoc oracle R blocks i).getD "")) ∧
      ∀ i ∈ order, runOk oracle R blocks i = true := by
  intro order
  induction order with
  | nil =>
      intro pairs h
      simp only [collectResults] at h
      cases h
      exact ⟨rfl, by simp⟩
  | cons j rest ih =>
      intro pairs h
      simp only [collectResults] at h
      cases hr : (blockRunOf oracle R blocks j).result with
      | some x =>
          cases x with
          | ok res =>
              rw [hr] at h
              simp only at h
              cases hc : (collectResults oracle R blocks rest).1 with
              | ok acc =>
                  rw [hc] at h
                  simp only at h
                  cases h
                  obtain ⟨hacc, hall⟩ := ih acc hc
                  have hfst : res.1 = j := processBlock_ok_fst _ R j res hr
                  have hdoc : runDoc oracle R blocks j = some res.2 := by
                    unfold runDoc
                    rw [hr]
                  constructor
                  · rw [List.map_cons, ← hacc, hdoc]
                    have hres : (j, ((some res.2).getD "" : String)) = res := by
                      rw [← hfst]
                      rfl
                    rw [hres]
                  · intro i hi
                    rcases List.mem_cons.mp hi with hij | hmem
                    · subst hij
                      unfold runOk
                      rw [hr]
                    · exact hall i hmem
              | error j2 =>
                  rw [hc] at h
                  simp only at h
                  cases h
          | error e =>
              rw [hr] at h
              simp only at h
              cases h
      | none =>
          rw [hr] at h
          simp only at h
          cases h

/-- Sorting by block index recovers the canonical list when the input is
a permutation of the canonical pairs over 0..N-1 (unique keys make the
sorted permutation unique). -/
theorem sortByIndex_canonical (N : Nat) (f : Nat → String)
    (pairs : List (Nat × String))
    (hperm : pairs.Perm ((List.range N).map (fun i => (i, f i)))) :
    sortByIndex pairs = (List.range N).map (fun i => (i, f i)) := by
  haveI hto : IsTotal (Nat × String) (fun a b => a.1 ≤ b.1) :=
    ⟨fun a b => Nat.le_total a.1 b.1⟩
  haveI htr : IsTrans (Nat × String) (fun a b => a.1 ≤ b.1) :=
    ⟨fun a b c h1 h2 => le_trans h1 h2⟩
  haveI han : IsAntisymm (Nat × String) (fun a b => a.1 < b.1) :=
    ⟨fun a b h1 h2 => absurd (lt_trans h1 h2) (lt_irrefl a.1)⟩
  have hsp : (sortByIndex pairs).Perm ((List.range N).map (fun i => (i, f i))) :=
    (List.perm_insertionSort _ pairs).trans hperm
  have hcanlt : List.Pairwise (fun a b : Nat × String => a.1 < b.1)
      ((List.range N).map (fun i => (i, f i))) :=
    List.pairwise_map.mpr (List.pairwise_lt_range N)
  have hcanne : List.Pairwise (fun a b : Nat × String => a.1 ≠ b.1)
      ((List.range N).map (fun i => (i, f i))) :=
    hcanlt.imp (fun h => Nat.ne_of_lt h)
  have hsortne : List.Pairwise (fun a b : Nat × String => a.1 ≠ b.1) (sortByIndex pairs) :=
    (List.Perm.pairwise_iff (fun h => h.symm) hsp).mpr hcanne
  have hsortle : List.Pairwise (fun a b : Nat × String => a.1 ≤ b.1) (sortByIndex pairs) :=
    List.sorted_insertionSort _ pairs
  have hsortlt : List.Pairwise (fun a b : Nat × String => a.1 < b.1) (sortByIndex pairs) :=
    (hsortle.and hsortne).imp (fun h => lt_of_le_of_ne h.1 h.2)
  exact List.eq_of_perm_of_sorted hsp hsortlt hcanlt

/-- C4: whenever the batch outcome is Success under some completion
order of the futures (any permutation of 0..N-1), the collected result
set holds exactly one pair per original index (the multiset of indices
is exactly 0..N-1, no duplicates, no gaps), and the returned output list
has exactly N entries with the i-th entry being the document the i-th
extracted block's future produced, regardless of the completion order. -/
theorem c4_success_ordered_complete (oracle : String → Nat → Attempt) (R : Nat)
    (blocks : List CodeBlock) (order : List Nat) (outputs : List String)
    (hperm : order.Perm (List.range blocks.length))
    (h : (processBlocksRun oracle R blocks order).1 = Except.ok outputs) :
    (collectResults oracle R blocks order).1 =
      Except.ok (order.map (fun i => (i, (runDoc oracle R blocks i).getD ""))) ∧
    outputs.length = blocks.length ∧
    outputs.map some = (List.range blocks.length).map (runDoc oracle R blocks) := by
  rcases hc : collectResults oracle R blocks order with ⟨res, calls⟩
  cases res with
  | error j =>
      unfold processBlocksRun at h
      rw [hc] at h
      simp at h
  | ok pairs =>
      have hco : (collectResults oracle R blocks order).1 = Except.ok pairs := by
        rw [hc]
      obtain ⟨hpairs, hall⟩ := collectResults_ok oracle R blocks order pairs hco
      have hout : outputs = (sortByIndex pairs).map (fun p => p.2) := by
        unfold processBlocksRun at h
        rw [hc] at h
        simp only at h
        cases h
        rfl
      have hperm2 : pairs.Perm ((List.range blocks.length).map
          (fun i => (i, (runDoc oracle R blocks i).getD ""))) := by
        rw [hpairs]
        exact hperm.map _
      have hsort := sortByIndex_canonical blocks.length
        (fun i => (runDoc oracle R blocks i).getD "") pairs hperm2
      refine ⟨?_, ?_, ?_⟩
      · show Except.ok pairs =
          Except.ok (order.map (fun i => (i, (runDoc oracle R blocks i).getD "")))
        rw [hpairs]
      · rw [hout, hsort]
        simp
      · rw [hout, hsort, List.map_map, List.map_map]
        apply List.map_congr_left
        intro i hi
        have hio : i ∈ order := hperm.mem_iff.mpr hi
        exact runDoc_of_runOk oracle R blocks i (hall i hio)

/-- Witness for c4_success_ordered_complete: two blocks completing in
reversed order still give the outputs in original order. -/
theorem c4_success_ordered_complete_witness :
    (collectResults oracleTag 3 twoFunBlocks [1, 0]).1 =
      Except.ok ([1, 0].map (fun i => (i, (runDoc oracleTag 3 twoFunBlocks i).getD ""))) ∧
    (["D:int f();", "D:int g();"] : List String).length = twoFunBlocks.length ∧
    (["D:int f();", "D:int g();"] : List String).map some =
      (List.range twoFunBlocks.length).map (runDoc oracleTag 3 twoFunBlocks) :=
  c4_success_ordered_complete oracleTag 3 twoFunBlocks [1, 0]
    ["D:int f();", "D:int g();"]
    (by have hl : twoFunBlocks.length = 2 := rfl
        rw [hl]
        decide)
    (by rfl)

/-- When the as_completed loop reports a failure, the reported index is
the first element of the completion order whose future did not deliver a
pair. -/
theorem collectResults_err (oracle : String → Nat → Attempt) (R : Nat)
    (blocks : List CodeBlock) :
    ∀ (order : List Nat) (i : Nat),
      (collectResults oracle R blocks order).1 = Except.error i →
      (order.dropWhile (fun j => runOk oracle R blocks j)).head? = some i := by
  intro order
  induction order with
  | nil =>
      intro i h
      simp only [collectResults] at h
      cases h
  | cons j rest ih =>
      intro i h
      simp only [collectResults] at h
      cases hr : (blockRunOf oracle R blocks j).result with
      | some x =>
          cases x with
          | ok res =>
              rw [hr] at h
              simp only at h
              have hok : runOk oracle R blocks j = true := by
                unfold runOk
                rw [hr]
              rw [List.dropWhile_cons, if_pos hok]
              cases hc : (collectResults oracle R blocks rest).1 with
              | ok acc =>
                  rw [hc] at h
                  simp only at h
                  cases h
              | error j2 =>
                  rw [hc] at h
                  simp only at h
                  cases h
                  exact ih _ hc
          | error e =>
              rw [hr] at h
              simp only at h
              cases h
              have hnok : runOk oracle R blocks j = false := by
                unfold runOk
                rw [hr]
              rw [List.dropWhile_cons, if_neg (by rw [hnok]; exact Bool.false_ne_true)]
              rfl
      | none =>
          rw [hr] at h
          simp only at h
          cases h
          have hnok : runOk oracle R blocks j = false := by
            unfold runOk
            rw [hr]
          rw [List.dropWhile_cons, if_neg (by rw [hnok]; exact Bool.false_ne_true)]
          rfl

/-- C5 (amended): a Failure outcome reports the first block, in the
completion order of the futures, whose future failed; with concurrent
failures this may be any failing block, not the one with the smallest
original index. -/
theorem c5_failure_first_completed (oracle : String → Nat → Attempt) (R : Nat)
    (blocks : List CodeBlock) (order : List Nat) (i : Nat)
    (h : (processBlocksRun oracle R blocks order).1 = Except.error i) :
    (order.dropWhile (fun j => runOk oracle R blocks j)).head? = some i := by
  apply collectResults_err oracle R blocks order i
  rcases hc : collectResults oracle R blocks order with ⟨res, calls⟩
  cases res with
  | ok pairs =>
      unfold processBlocksRun at h
      rw [hc] at h
      simp at h
  | error j =>
      unfold processBlocksRun at h
      rw [hc] at h
      simp only at h
      cases h
      rfl

/-- Witness for c5_failure_first_completed: with both blocks failing and
completion order [1, 0], the reported block is 1. -/
theorem c5_failure_first_completed_witness :
    (([1, 0] : List Nat).dropWhile (fun j => runOk oracleFailAll 2 twoFunBlocks j)).head? =
      some 1 :=
  c5_failure_first_completed oracleFailAll 2 twoFunBlocks [1, 0] 1 (by rfl)

/-- C5 counterexample: blocks 0 and 1 both exhaust their retries; with
completion order [1, 0] the batch reports block 1, not the failed block
with the smallest original index (block 0). -/
theorem c5_smallest_index_counterexample :
    (processBlocksRun oracleFailAll 2 twoFunBlocks [1, 0]).1 = Except.error 1 ∧
    (blockRunOf oracleFailAll 2 twoFunBlocks 0).result = some (Except.error "boom") ∧
    (1 : Nat) ≠ 0 :=
  ⟨by rfl, by rfl, by omega⟩

/-- The leftmost-match search never reports a match before the position
it was started from. -/
theorem findFrom_start_ge (m : List Char → Option (Nat × List Char)) (s : List Char) :
    ∀ (fuel p : Nat) (r : RawMatch), findFrom m s fuel p = some r → p ≤ r.start := by
  intro fuel
  induction fuel with
  | zero =>
      intro p r h
      simp [findFrom] at h
  | succ f ih =>
      intro p r h
      simp only [findFrom] at h
      cases hm : m (s.drop p) with
      | some x =>
          rw [hm] at h
          cases h
          exact le_refl p
      | none =>
          rw [hm] at h
          by_cases hl : s.length ≤ p
          · rw [if_pos hl] at h
            cases h
          · rw [if_neg hl] at h
            exact Nat.le_of_succ_le (ih (p + 1) r h)

/-- Every match reported by the finditer scan starts at or after the
scan position. -/
theorem scanAll_start_ge (m : List Char → Option (Nat × List Char)) (s : List Char) :
    ∀ (fuel p : Nat) (r : RawMatch), r ∈ scanAll m s fuel p → p ≤ r.start := by
  intro fuel
  induction fuel with
  | zero =>
      intro p r h
      simp [scanAll] at h
  | succ f ih =>
      intro p r h
      simp only [scanAll] at h
      cases hf : findFrom m s (s.length + 1 - p) p with
      | none =>
          rw [hf] at h
          simp at h
      | some r0 =>
          rw [hf] at h
          rcases List.mem_cons.mp h with hr | hr
          · subst hr
            exact findFrom_start_ge m s _ p r hf
          · have h1 : r0.start + max r0.len 1 ≤ r.start := ih _ r hr
            have h2 : p ≤ r0.start := findFrom_start_ge m s _ p r0 hf
            omega

/-- The finditer scan reports matches with strictly increasing start
offsets: each pass lists its matches in the order they begin in the
text. -/
theorem scanAll_chain (m : List Char → Option (Nat × List Char)) (s : List Char) :
    ∀ (fuel p : Nat),
      List.Chain' (fun x y : RawMatch => x.start < y.start) (scanAll m s fuel p) := by
  intro fuel
  induction fuel with
  | zero =>
      intro p
      simp [scanAll]
  | succ f ih =>
      intro p
      simp only [scanAll]
      cases hf : findFrom m s (s.length + 1 - p) p with
      | none => exact List.chain'_nil
      | some r0 =>
          rw [List.chain'_cons']
          refine ⟨?_, ih _⟩
          intro y hy
          have hmem : y ∈ scanAll m s f (r0.start + max r0.len 1) :=
            List.mem_of_mem_head? hy
          have h1 : r0.start + max r0.len 1 ≤ y.start :=
            scanAll_start_ge m s f _ y hmem
          have h2 : 1 ≤ max r0.len 1 := Nat.le_max_right r0.len 1
          omega

/-- C1 (amended): _extract_code_blocks returns exactly M + K blocks for
M function matches and K struct matches, but grouped by pass: all
function blocks first, ordered by match start, then all struct blocks,
ordered by match start; enumeration assigns originalIndex 0..M+K-1 in
that grouped order.  Blocks of different kinds are NOT interleaved by
source position. -/
theorem c1_amended_grouped_order (s : List Char) :
    extractCodeBlocks s =
      (functionMatches s).map (mkBlock BlockKind.function s) ++
      (structMatches s).map (mkBlock BlockKind.struct s) ∧
    (extractCodeBlocks s).length = (functionMatches s).length + (structMatches s).length ∧
    List.Chain' (· < ·) ((functionMatches s).map RawMatch.start) ∧
    List.Chain' (· < ·) ((structMatches s).map RawMatch.start) ∧
    (extractCodeBlocks s).enum.map Prod.fst =
      List.range ((functionMatches s).length + (structMatches s).length) := by
  refine ⟨rfl, ?_, ?_, ?_, ?_⟩
  · simp [extractCodeBlocks]
  · rw [List.chain'_map]
    exact scanAll_chain matchFunctionAt s (s.length + 1) 0
  · rw [List.chain'_map]
    exact scanAll_chain matchStructAt s (s.length + 1) 0
  · rw [List.enum_map_fst]
    simp [extractCodeBlocks]

/-- A text in which the struct match begins before the function match. -/
def interleavedText : String := "struct S \x7b int a; \x7d;\nint f(int x);\n"

/-- C1 counterexample: on interleavedText the extraction returns the
function block first (originalIndex 0) although its match begins at
offset 20, after the struct match at offset 0 — the blocks are not
arranged in the order their matches begin in the text. -/
theorem c1_source_order_counterexample :
    (extractBlocksStr interleavedText).map CodeBlock.kind =
      [BlockKind.function, BlockKind.struct] ∧
    (functionMatches interleavedText.data).map RawMatch.start = [20] ∧
    (structMatches interleavedText.data).map RawMatch.start = [0] ∧
    (0 : Nat) < 20 :=
  ⟨by rfl, by rfl, by rfl, by omega⟩

/-- The bodies the one-level-nesting body regex is meant to capture,
viewed from a brace point: the empty tail (the final closing brace
follows at once) or one nested pair, a brace-free run, and another such
tail. -/
inductive BodySeq : List Char → Prop where
  | done : BodySeq []
  | pair (b a v : List Char) (hb : ∀ c ∈ b, isNonBrace c = true)
      (ha : ∀ c ∈ a, isNonBrace c = true) (hv : BodySeq v) :
      BodySeq ('{' :: b ++ '}' :: a ++ v)

/-- A body interior with brace nesting depth at most one: a brace-free
run followed by zero or more (nested pair, brace-free run) groups. -/
def Depth1 (w : List Char) : Prop :=
  ∃ a v, (∀ c ∈ a, isNonBrace c = true) ∧ BodySeq v ∧ w = a ++ v

/-- A BodySeq followed by the final closing brace starts with a brace,
so a brace-free run taken there is empty. -/
theorem BodySeq.takeWhile_nil {v : List Char} (h : BodySeq v) (rest : List Char) :
    (v ++ '}' :: rest).takeWhile isNonBrace = [] := by
  cases h with
  | done =>
      have hc : isNonBrace '}' = false := rfl
      simp [List.takeWhile_cons, hc]
  | pair b a v2 hb ha hv =>
      have hc : isNonBrace '{' = false := rfl
      simp [List.cons_append, List.takeWhile_cons, hc]

/-- The body-regex loop with enough fuel consumes a BodySeq tail exactly
through the final closing brace. -/
theorem bodyLoopF_bodySeq {v : List Char} (h : BodySeq v) :
    ∀ (rest : List Char) (fuel : Nat), v.length < fuel →
      bodyLoopF fuel (v ++ '}' :: rest) = some (v.length + 1) := by
  induction h with
  | done =>
      intro rest fuel hf
      cases fuel with
      | zero => omega
      | succ f => rfl
  | pair b a v2 hb ha hv ih =>
      intro rest fuel hf
      cases fuel with
      | zero => omega
      | succ f =>
          have hshape : ('{' :: b ++ '}' :: a ++ v2) ++ '}' :: rest =
              '{' :: (b ++ '}' :: (a ++ (v2 ++ '}' :: rest))) := by
            simp [List.cons_append, List.append_assoc]
          rw [hshape]
          simp only [bodyLoopF]
          have htw : (b ++ '}' :: (a ++ (v2 ++ '}' :: rest))).takeWhile isNonBrace = b := by
            rw [List.takeWhile_append_of_pos hb]
            simp [List.takeWhile_cons, isNonBrace]
          rw [htw]
          have hdr : (b ++ '}' :: (a ++ (v2 ++ '}' :: rest))).drop b.length =
              '}' :: (a ++ (v2 ++ '}' :: rest)) := List.drop_left b _
          rw [hdr]
          simp only
          have htw2 : (a ++ (v2 ++ '}' :: rest)).takeWhile isNonBrace = a := by
            rw [List.takeWhile_append_of_pos ha, hv.takeWhile_nil rest, List.append_nil]
          rw [htw2]
          have hdr2 : (a ++ (v2 ++ '}' :: rest)).drop a.length = v2 ++ '}' :: rest :=
            List.drop_left a _
          rw [hdr2]
          have hrec : bodyLoopF f (v2 ++ '}' :: rest) = some (v2.length + 1) := by
            apply ih rest f
            simp only [List.length_cons, List.length_append] at hf ⊢
            omega
          rw [hrec]
          simp only [Option.some.injEq, List.length_cons, List.length_append]
          omega

/-- The brace-body regex applied to an opening brace, a depth-at-most-one
interior, its matching closing brace and arbitrary trailing text matches
exactly through that matching closing brace. -/
theorem matchBraceBody_depth1 (w rest : List Char) (h : Depth1 w) :
    matchBraceBody ('{' :: (w ++ '}' :: rest)) = some (w.length + 2) := by
  obtain ⟨a, v, ha, hv, rfl⟩ := h
  simp only [matchBraceBody]
  rw [List.append_assoc]
  have htw : (a ++ (v ++ '}' :: rest)).takeWhile isNonBrace = a := by
    rw [List.takeWhile_append_of_pos ha, hv.takeWhile_nil rest, List.append_nil]
  rw [htw]
  have hdr : (a ++ (v ++ '}' :: rest)).drop a.length = v ++ '}' :: rest :=
    List.drop_left a _
  rw [hdr]
  unfold bodyLoop
  have hrec : bodyLoopF ((v ++ '}' :: rest).length + 1) (v ++ '}' :: rest) =
      some (v.length + 1) := by
    apply bodyLoopF_bodySeq hv rest
    simp only [List.length_append, List.length_cons]
    omega
  rw [hrec]
  show some (1 + a.length + (v.length + 1)) = some ((a ++ v).length + 2)
  have harith : 1 + a.length + (v.length + 1) = (a ++ v).length + 2 := by
    simp only [List.length_append]
    omega
  rw [harith]

/-- A function text whose body has two levels of nested braces: neither
the brace alternative nor the semicolon alternative of the body group
can match, so the function pattern finds no match at all. -/
def deepNestText : String := "int f() \x7ba\x7bb\x7bc\x7dd\x7de\x7d"

/-- C6: the body group of function_pattern captures a brace-delimited
body through its matching outermost closing brace whenever the interior
nests braces at most one level deep (and a bare semicolon declaration is
captured as the one-character body); a body with deeper nesting is not
captured to its true closing brace — on deepNestText the function
matcher finds no match at all. -/
theorem c6_body_capture :
    (∀ w rest : List Char, Depth1 w →
        matchBraceBody ('{' :: (w ++ '}' :: rest)) = some (w.length + 2)) ∧
    (∀ r : List Char, matchBody (';' :: r) = some 1) ∧
    functionMatches deepNestText.data = [] := by
  refine ⟨fun w rest h => matchBraceBody_depth1 w rest h, fun r => rfl, by rfl⟩

/-- Witness for c6_body_capture: the interior a{b}c nests one level, and
the whole body {a{b}c} (7 characters) is consumed; a bare semicolon body
is consumed as one character. -/
theorem c6_body_capture_witness :
    matchBraceBody ('{' :: (['a', '{', 'b', '}', 'c'] ++ '}' :: [])) = some 7 ∧
    matchBody (';' :: []) = some 1 := by
  have hd : Depth1 ['a', '{', 'b', '}', 'c'] := by
    refine ⟨['a'], '{' :: ['b'] ++ '}' :: ['c'] ++ [], ?_, ?_, by decide⟩
    · intro c hc
      simp only [List.mem_singleton] at hc
      subst hc
      rfl
    · exact BodySeq.pair ['b'] ['c'] []
        (by intro c hc; simp only [List.mem_singleton] at hc; subst hc; rfl)
        (by intro c hc; simp only [List.mem_singleton] at hc; subst hc; rfl)
        BodySeq.done
  exact ⟨c6_body_capture.1 ['a', '{', 'b', '}', 'c'] [] hd, c6_body_capture.2.1 []⟩
